import Mathlib

/-!
Verification of the metadata indexing and search subsystem of cosmic-store
(`src/main.rs`), shallowly embedded in Lean.

Strings are modelled as `List Char`, and match offsets as character indices
(the Rust code uses byte offsets into UTF-8 strings; on the structure of the
code the two views coincide).  The compiled search pattern is
`regex::escape`d user text compiled with `case_insensitive(true)`, i.e. a
case-insensitive literal substring matcher; `regexFind` models
`regex::Regex::find` for such a pattern: it returns the leftmost match as a
(start, end) offset pair.  Case folding is modelled by `Char.toLower`.
-/

namespace CosmicStore

/-- Case folding used by the case-insensitive matcher model. -/
def lc (s : List Char) : List Char := s.map Char.toLower

/-- `matchAt pat s i` holds when the escaped, case-insensitive pattern `pat`
matches the haystack `s` at offset `i`. -/
def matchAt (pat s : List Char) (i : Nat) : Bool :=
  decide (i + pat.length ≤ s.length) && (((lc s).drop i).take pat.length == lc pat)

/-- There is a match of `pat` somewhere in `s` (offsets past `s.length` never
match, so scanning offsets `0 .. s.length` is exhaustive). -/
def matchesIC (pat s : List Char) : Bool :=
  (List.range (s.length + 1)).any (fun i => matchAt pat s i)

/-- Leftmost match offset of `pat` in `s`, if any. -/
def findICAux (pat : List Char) : List Char → Option Nat
  | [] => if matchAt pat [] 0 then some 0 else none
  | c :: rest =>
    if matchAt pat (c :: rest) 0 then some 0
    else (findICAux pat rest).map (· + 1)

/-- Model of `regex::Regex::find` for an escaped (literal) case-insensitive
pattern: the leftmost match with its (start, end) offsets. -/
def regexFind (pat s : List Char) : Option (Nat × Nat) :=
  (findICAux pat s).map (fun i => (i, i + pat.length))

/-- The per-component weighting of `App::search` (`src/main.rs:225-257`):
try the name first, then the summary.  NOTE: the summary branch of the
source compares the summary match end against `name.len()`, and that is
reproduced here verbatim. -/
def searchWeight (pat name summary : List Char) : Option Nat :=
  match regexFind pat name with
  | some mat =>
    if mat.1 = 0 then
      if mat.2 = name.length then some 0
      else some 1
    else some 2
  | none =>
    match regexFind pat summary with
    | some mat =>
      if mat.1 = 0 then
        if mat.2 = name.length then some 3
        else some 4
      else some 5
    | none => none

theorem matchAt_cons_succ (pat : List Char) (c : Char) (rest : List Char) (i : Nat) :
    matchAt pat (c :: rest) (i + 1) = matchAt pat rest i := by
  unfold matchAt
  simp only [lc, List.map_cons, List.drop_succ_cons, List.length_cons]
  congr 1
  exact decide_eq_decide.mpr (by omega)

theorem matchAt_le_length {pat s : List Char} {i : Nat} (h : matchAt pat s i = true) :
    i + pat.length ≤ s.length := by
  unfold matchAt at h
  exact of_decide_eq_true ((Bool.and_eq_true _ _).mp h).1

theorem matchesIC_iff (pat s : List Char) :
    matchesIC pat s = true ↔ ∃ i, matchAt pat s i = true := by
  unfold matchesIC
  rw [List.any_eq_true]
  constructor
  · rintro ⟨i, -, hi⟩
    exact ⟨i, hi⟩
  · rintro ⟨i, hi⟩
    have := matchAt_le_length hi
    exact ⟨i, List.mem_range.mpr (by omega), hi⟩

theorem findICAux_some (pat : List Char) (s : List Char) :
    ∀ i, findICAux pat s = some i →
      matchAt pat s i = true ∧ ∀ j, j < i → matchAt pat s j = false := by
  induction s with
  | nil =>
    intro i h
    unfold findICAux at h
    split at h
    next hm =>
      cases h
      exact ⟨hm, fun j hj => absurd hj (Nat.not_lt_zero j)⟩
    next => cases h
  | cons c rest ih =>
    intro i h
    unfold findICAux at h
    split at h
    next hm =>
      cases h
      exact ⟨hm, fun j hj => absurd hj (Nat.not_lt_zero j)⟩
    next hm =>
      have hm' : matchAt pat (c :: rest) 0 = false := by
        cases hv : matchAt pat (c :: rest) 0
        · rfl
        · exact absurd hv hm
      match hrec : findICAux pat rest with
      | none => rw [hrec] at h; cases h
      | some i' =>
        rw [hrec] at h
        simp only [Option.map_some'] at h
        cases h
        obtain ⟨h1, h2⟩ := ih i' hrec
        refine ⟨by rw [matchAt_cons_succ]; exact h1, ?_⟩
        intro j hj
        cases j with
        | zero => exact hm'
        | succ k =>
          rw [matchAt_cons_succ]
          exact h2 k (Nat.lt_of_succ_lt_succ hj)

theorem findICAux_none (pat : List Char) (s : List Char) :
    findICAux pat s = none → ∀ j, matchAt pat s j = false := by
  induction s with
  | nil =>
    intro h j
    have h0 : matchAt pat [] 0 = false := by
      unfold findICAux at h
      split at h
      next => cases h
      next hm =>
        cases hv : matchAt pat [] 0
        · rfl
        · exact absurd hv hm
    cases hv : matchAt pat [] j
    · rfl
    · have := matchAt_le_length hv
      simp only [List.length_nil] at this
      have hj : j = 0 := by omega
      rw [hj] at hv
      rw [hv] at h0
      cases h0
  | cons c rest ih =>
    intro h j
    unfold findICAux at h
    split at h
    next => cases h
    next hm =>
      have hm' : matchAt pat (c :: rest) 0 = false := by
        cases hv : matchAt pat (c :: rest) 0
        · rfl
        · exact absurd hv hm
      have hrest : findICAux pat rest = none := Option.map_eq_none'.mp h
      cases j with
      | zero => exact hm'
      | succ k =>
        rw [matchAt_cons_succ]
        exact ih hrest k

/-- C1: if the localized name matches the compiled pattern anywhere, the
weight is 0 when the (leftmost) match spans the whole name, 1 when it starts
at offset 0 without spanning the whole name, and 2 when the name only
matches at a later offset. -/
theorem c1_name_match_tiers (pat name summary : List Char)
    (h : matchesIC pat name = true) :
    searchWeight pat name summary =
      some (if matchAt pat name 0 then (if pat.length = name.length then 0 else 1) else 2) := by
  obtain ⟨i, hi⟩ := (matchesIC_iff pat name).mp h
  match hf : findICAux pat name with
  | none =>
    rw [findICAux_none pat name hf i] at hi
    cases hi
  | some i0 =>
    obtain ⟨h1, h2⟩ := findICAux_some pat name i0 hf
    unfold searchWeight regexFind
    rw [hf]
    simp only [Option.map_some']
    by_cases h0 : matchAt pat name 0 = true
    · have hz : i0 = 0 := by
        by_contra hne
        have := h2 0 (Nat.pos_of_ne_zero hne)
        rw [h0] at this
        cases this
      subst hz
      simp only [if_pos rfl, Nat.zero_add, h0, if_true]
      split <;> rfl
    · have hi0 : i0 ≠ 0 := fun e => h0 (e ▸ h1)
      have h0' : matchAt pat name 0 = false := by
        cases hv : matchAt pat name 0
        · rfl
        · exact absurd hv h0
      simp [hi0, h0']

/-- C1 witness: pattern "ab" on name "abc" (prefix, not full) with empty
summary gives the claimed tier. -/
theorem c1_witness :
    matchesIC ['a', 'b'] ['a', 'b', 'c'] = true ∧
    searchWeight ['a', 'b'] ['a', 'b', 'c'] [] =
      some (if matchAt ['a', 'b'] ['a', 'b', 'c'] 0 then
              (if (['a', 'b'] : List Char).length = (['a', 'b', 'c'] : List Char).length
               then 0 else 1)
            else 2) :=
  ⟨by decide, c1_name_match_tiers ['a', 'b'] ['a', 'b', 'c'] [] (by decide)⟩

/-- C2: counterexample to the claimed summary tiers.  With pattern "ab",
name "xyz" and summary "ab", the summary is exactly equal to the pattern, so
the claim (and the source's own comment) requires weight 3; the code
compares the summary match end (2) against the NAME length (3) and yields
weight 4 instead. -/
theorem c2_summary_tier_bug_eval :
    searchWeight ['a', 'b'] ['x', 'y', 'z'] ['a', 'b'] = some 4 := by decide

/-! ## Natural lexical comparison

Model of `lexical_sort::natural_lexical_cmp` (an external crate used at
`src/main.rs:275` and `src/main.rs:365`): characters are compared
case-insensitively and maximal runs of decimal digits are compared by their
numeric value.  The comparison is realised by mapping each string to a key —
a list of tokens, a token being either a lowercased non-digit character or
the value of a digit run — and comparing keys lexicographically.  Tokens are
encoded as pairs `(bucket, value)`: bucket 0 for characters below '0',
bucket 1 for digit runs, bucket 2 for characters above '9', which mirrors
how a digit char compares against a non-digit char by code point. -/

/-- Token for one lowercased non-digit character. -/
def charTok (c : Char) : Nat × Nat :=
  if c.toLower.toNat < 48 then (0, c.toLower.toNat) else (2, c.toLower.toNat)

/-- Numeric value of a decimal digit character. -/
def digitVal (c : Char) : Nat := c.toNat - 48

/-- Tokenize a string, accumulating the value of the pending digit run. -/
def keyAux : Option Nat → List Char → List (Nat × Nat)
  | none, [] => []
  | some n, [] => [(1, n)]
  | none, c :: rest =>
    if c.isDigit then keyAux (some (digitVal c)) rest
    else charTok c :: keyAux none rest
  | some n, c :: rest =>
    if c.isDigit then keyAux (some (n * 10 + digitVal c)) rest
    else (1, n) :: charTok c :: keyAux none rest

/-- The natural-lexical sort key of a string. -/
def strKey (s : List Char) : List (Nat × Nat) := keyAux none s

/-- Comparison of machine integers, as Rust's `Ord::cmp` on `usize`. -/
def cmpN (a b : Nat) : Ordering :=
  if a < b then .lt else if b < a then .gt else .eq

/-- Lexicographic comparison of tokens. -/
def cmpTok (a b : Nat × Nat) : Ordering :=
  (cmpN a.1 b.1).then (cmpN a.2 b.2)

/-- Lexicographic comparison of token lists. -/
def cmpKey : List (Nat × Nat) → List (Nat × Nat) → Ordering
  | [], [] => .eq
  | [], _ :: _ => .lt
  | _ :: _, [] => .gt
  | a :: as, b :: bs => (cmpTok a b).then (cmpKey as bs)

/-- Model of `lexical_sort::natural_lexical_cmp`. -/
def naturalLexicalCmp (a b : List Char) : Ordering :=
  cmpKey (strKey a) (strKey b)

theorem cmpN_eq_iff {a b : Nat} : cmpN a b = .eq ↔ a = b := by
  unfold cmpN
  by_cases h1 : a < b
  · rw [if_pos h1]
    exact ⟨(fun h => nomatch h), fun h => by omega⟩
  · rw [if_neg h1]
    by_cases h2 : b < a
    · rw [if_pos h2]
      exact ⟨(fun h => nomatch h), fun h => by omega⟩
    · rw [if_neg h2]
      exact ⟨fun _ => Nat.le_antisymm (by omega) (by omega), fun _ => rfl⟩

theorem cmpN_lt_iff {a b : Nat} : cmpN a b = .lt ↔ a < b := by
  unfold cmpN
  by_cases h1 : a < b
  · rw [if_pos h1]
    exact ⟨fun _ => h1, fun _ => rfl⟩
  · rw [if_neg h1]
    by_cases h2 : b < a
    · rw [if_pos h2]
      exact ⟨(fun h => nomatch h), fun h => absurd h h1⟩
    · rw [if_neg h2]
      exact ⟨(fun h => nomatch h), fun h => absurd h h1⟩

theorem cmpN_gt_iff {a b : Nat} : cmpN a b = .gt ↔ b < a := by
  unfold cmpN
  by_cases h1 : a < b
  · rw [if_pos h1]
    exact ⟨(fun h => nomatch h), fun h => by omega⟩
  · rw [if_neg h1]
    by_cases h2 : b < a
    · rw [if_pos h2]
      exact ⟨fun _ => h2, fun _ => rfl⟩
    · rw [if_neg h2]
      exact ⟨(fun h => nomatch h), fun h => absurd h h2⟩

theorem then_eq_lt {o o' : Ordering} :
    o.then o' = .lt ↔ o = .lt ∨ (o = .eq ∧ o' = .lt) := by
  cases o <;> simp [Ordering.then]

theorem then_eq_eq {o o' : Ordering} :
    o.then o' = .eq ↔ o = .eq ∧ o' = .eq := by
  cases o <;> simp [Ordering.then]

theorem then_eq_gt {o o' : Ordering} :
    o.then o' = .gt ↔ o = .gt ∨ (o = .eq ∧ o' = .gt) := by
  cases o <;> simp [Ordering.then]

theorem cmpTok_eq_iff {a b : Nat × Nat} : cmpTok a b = .eq ↔ a = b := by
  unfold cmpTok
  rw [then_eq_eq, cmpN_eq_iff, cmpN_eq_iff]
  constructor
  · rintro ⟨h1, h2⟩
    exact Prod.ext h1 h2
  · rintro rfl
    exact ⟨rfl, rfl⟩

theorem cmpTok_lt_trans {a b c : Nat × Nat}
    (hab : cmpTok a b = .lt) (hbc : cmpTok b c = .lt) : cmpTok a c = .lt := by
  unfold cmpTok at *
  rw [then_eq_lt] at hab hbc ⊢
  rw [cmpN_lt_iff, cmpN_eq_iff] at hab hbc
  rw [cmpN_lt_iff, cmpN_eq_iff]
  rcases hab with h | ⟨h1, h2⟩ <;> rcases hbc with h' | ⟨h1', h2'⟩
  · exact Or.inl (by omega)
  · exact Or.inl (by omega)
  · exact Or.inl (by omega)
  · rw [cmpN_lt_iff] at h2 h2'
    refine Or.inr ⟨by omega, cmpN_lt_iff.mpr (by omega)⟩

theorem cmpTok_gt_iff {a b : Nat × Nat} : cmpTok a b = .gt ↔ cmpTok b a = .lt := by
  unfold cmpTok
  rw [then_eq_gt, then_eq_lt, cmpN_gt_iff, cmpN_lt_iff, cmpN_eq_iff, cmpN_eq_iff,
    cmpN_gt_iff, cmpN_lt_iff]
  constructor
  · rintro (h | ⟨h1, h2⟩)
    · exact Or.inl h
    · exact Or.inr ⟨h1.symm, h2⟩
  · rintro (h | ⟨h1, h2⟩)
    · exact Or.inl h
    · exact Or.inr ⟨h1.symm, h2⟩

theorem cmpKey_eq_iff : ∀ {k l : List (Nat × Nat)}, cmpKey k l = .eq ↔ k = l
  | [], [] => by simp [cmpKey]
  | [], _ :: _ => by simp [cmpKey]
  | _ :: _, [] => by simp [cmpKey]
  | a :: as, b :: bs => by
    rw [cmpKey, then_eq_eq, cmpTok_eq_iff, cmpKey_eq_iff]
    constructor
    · rintro ⟨rfl, rfl⟩
      rfl
    · rintro h
      cases h
      exact ⟨rfl, rfl⟩

theorem cmpKey_lt_trans :
    ∀ {k l m : List (Nat × Nat)}, cmpKey k l = .lt → cmpKey l m = .lt → cmpKey k m = .lt
  | [], [], _ :: _, _, _ => rfl
  | [], _ :: _, _ :: _, _, _ => rfl
  | a :: as, b :: bs, c :: cs, hab, hbc => by
    rw [cmpKey, then_eq_lt] at hab hbc ⊢
    rcases hab with h | ⟨h1, h2⟩ <;> rcases hbc with h' | ⟨h1', h2'⟩
    · exact Or.inl (cmpTok_lt_trans h h')
    · rw [cmpTok_eq_iff] at h1'
      exact Or.inl (h1' ▸ h)
    · rw [cmpTok_eq_iff] at h1
      exact Or.inl (h1 ▸ h')
    · rw [cmpTok_eq_iff] at h1 h1'
      exact Or.inr ⟨cmpTok_eq_iff.mpr (h1.trans h1'), cmpKey_lt_trans h2 h2'⟩

theorem cmpKey_gt_iff : ∀ {k l : List (Nat × Nat)}, cmpKey k l = .gt ↔ cmpKey l k = .lt
  | [], [] => by simp [cmpKey]
  | [], _ :: _ => by simp [cmpKey]
  | _ :: _, [] => by simp [cmpKey]
  | a :: as, b :: bs => by
    rw [cmpKey, cmpKey, then_eq_gt, then_eq_lt, cmpTok_gt_iff, cmpTok_eq_iff, cmpTok_eq_iff,
      cmpKey_gt_iff]
    constructor
    · rintro (h | ⟨h1, h2⟩)
      · exact Or.inl h
      · exact Or.inr ⟨h1.symm, h2⟩
    · rintro (h | ⟨h1, h2⟩)
      · exact Or.inl h
      · exact Or.inr ⟨h1.symm, h2⟩

/-- "less or equivalent" for `cmpKey`-based comparisons. -/
theorem cmpKey_le_trans {k l m : List (Nat × Nat)}
    (hab : cmpKey k l ≠ .gt) (hbc : cmpKey l m ≠ .gt) : cmpKey k m ≠ .gt := by
  have hab' : cmpKey k l = .lt ∨ k = l := by
    cases h : cmpKey k l
    · exact Or.inl rfl
    · exact Or.inr (cmpKey_eq_iff.mp h)
    · exact absurd h hab
  have hbc' : cmpKey l m = .lt ∨ l = m := by
    cases h : cmpKey l m
    · exact Or.inl rfl
    · exact Or.inr (cmpKey_eq_iff.mp h)
    · exact absurd h hbc
  rcases hab' with h | rfl <;> rcases hbc' with h' | rfl
  · rw [cmpKey_lt_trans h h']
    intro hc
    cases hc
  · rw [h]
    intro hc
    cases hc
  · rw [h']
    intro hc
    cases hc
  · exact hab

theorem cmpKey_le_total (k l : List (Nat × Nat)) :
    cmpKey k l ≠ .gt ∨ cmpKey l k ≠ .gt := by
  cases h : cmpKey k l
  · exact Or.inl (by intro hc; cases hc)
  · exact Or.inl (by intro hc; cases hc)
  · refine Or.inr ?_
    rw [cmpKey_gt_iff.mp h]
    intro hc
    cases hc

/-! ## Data model

Structures mirroring `appstream::Collection` / `appstream::Component` /
`appstream::TranslatableString` (the external appstream crate, whose
localized lookup the source calls through `get_translatable`,
`src/main.rs:88-96`), and the `SearchResult` / `Selected` records of
`src/main.rs:167-186`.  Icon handles (`widget::icon::Handle`) are opaque
presentation-layer values and are omitted.  `TranslatableString` is a
locale-keyed map; its default-locale entry is stored under the key
"default". -/

structure TranslatableString where
  entries : List (String × List Char)
deriving DecidableEq, Repr

/-- Model of `appstream::TranslatableString::get_for_locale`. -/
def get_for_locale (t : TranslatableString) (locale : String) : Option (List Char) :=
  (t.entries.find? (fun e => decide (e.1 = locale))).map (fun e => e.2)

/-- Model of `appstream::TranslatableString::get_default`. -/
def get_default (t : TranslatableString) : Option (List Char) :=
  get_for_locale t "default"

/-- `get_translatable` (`src/main.rs:88-96`): exact locale, then default
locale, then the empty string. -/
def get_translatable (t : TranslatableString) (locale : String) : List Char :=
  match get_for_locale t locale with
  | some s => s
  | none =>
    match get_default t with
    | some s => s
    | none => []

structure Component where
  name : TranslatableString
  summary : Option TranslatableString
deriving DecidableEq, Repr

structure Collection where
  origin : Option String
  components : List Component
deriving DecidableEq, Repr

/-- A `backend::Package` (`backend.rs` is not part of the given sources;
modelled from the spec §3: id, display name, version string, summary). -/
structure Package where
  id : String
  name : List Char
  version : List Char
  summary : List Char
deriving DecidableEq, Repr

structure SearchResult where
  backend_name : String
  id : String
  name : List Char
  summary : List Char
  collection : Collection
  weight : Nat
deriving DecidableEq, Repr

structure Selected where
  backend_name : String
  id : String
  name : List Char
  summary : List Char
  collection : Collection
deriving DecidableEq, Repr

/-- Modelled from the spec: the Backend capability interface (§4.2); the
concrete backend implementations (`backend.rs`) are not part of the given
sources.  `installed` enumerates installed packages or fails; `appstream`
fetches the full collection for one package or fails. -/
structure Backend where
  installed : Except String (List Package)
  appstream : Package → Except String Collection

/-- Modelled from the spec: the Backend Registry (§4.3), a name-keyed
mapping of backends built once at startup. -/
abbrev Backends := List (String × Backend)

/-- Registry lookup, `Backends::get(name)`. -/
def getBackend (backends : Backends) (name : String) : Option Backend :=
  (backends.find? (fun nb => decide (nb.1 = name))).map (fun nb => nb.2)

/-! ## Search (`App::search`, `src/main.rs:208-287`) -/

/-- Localized component name, `get_translatable(&component.name, &locale)`. -/
def localizedName (comp : Component) (locale : String) : List Char :=
  get_translatable comp.name locale

/-- Localized component summary,
`component.summary.as_ref().map_or("", |x| get_translatable(x, &locale))`. -/
def localizedSummary (comp : Component) (locale : String) : List Char :=
  match comp.summary with
  | some t => get_translatable t locale
  | none => []

/-- One component's contribution to the results (`src/main.rs:218-272`). -/
def searchComponent (pat : List Char) (locale : String) (id : String)
    (collection : Collection) (comp : Component) : Option SearchResult :=
  match searchWeight pat (localizedName comp locale) (localizedSummary comp locale) with
  | some weight =>
    some { backend_name := "TODO", id := id, name := localizedName comp locale,
           summary := localizedSummary comp locale,
           collection := collection, weight := weight }
  | none => none

/-- The result comparator of `src/main.rs:274-277`: weight first, then
natural lexical order of the names. -/
def cmpResult (a b : SearchResult) : Ordering :=
  match cmpN a.weight b.weight with
  | .eq => naturalLexicalCmp a.name b.name
  | ordering => ordering

/-- "not greater" for `cmpResult`, the relation established by the sort. -/
def resultLE (a b : SearchResult) : Prop := cmpResult a b ≠ .gt

instance : DecidableRel resultLE := fun a b =>
  inferInstanceAs (Decidable (cmpResult a b ≠ .gt))

/-- `App::search`: scan every component of every collection, weight it, and
sort the surviving results (the `HashMap` iteration over
`appstream_cache.collections` is modelled as a list of key/collection
pairs). -/
def searchAll (pat : List Char) (locale : String)
    (cache : List (String × Collection)) : List SearchResult :=
  List.insertionSort resultLE
    (cache.flatMap (fun ic => ic.2.components.filterMap
      (searchComponent pat locale ic.1 ic.2)))

/-! ## Selection (`App::select_package`, `src/main.rs:288-317`) -/

/-- `App::select_package`: the message eventually delivered back to the
update loop — `some` of a hydrated `Selected` on success, and no message
(`message::none()`) when the backend is missing or its appstream fetch
fails. -/
def select_package (backends : Backends) (backend_name : String)
    (package : Package) : Option Selected :=
  match getBackend backends backend_name with
  | none => none
  | some backend =>
    match backend.appstream package with
    | .ok collection =>
      some { backend_name := backend_name, id := package.id, name := package.name,
             summary := package.summary, collection := collection }
    | .error _ => none

/-! ## Installed listing (`App::update_installed`, `src/main.rs:342-373`) -/

/-- "not greater" for the installed-list comparator
(`lexical_sort::natural_lexical_cmp(&a.1.name, &b.1.name)`,
`src/main.rs:365`). -/
def installedLE (a b : String × Package) : Prop :=
  naturalLexicalCmp a.2.name b.2.name ≠ .gt

instance : DecidableRel installedLE := fun a b =>
  inferInstanceAs (Decidable (naturalLexicalCmp a.2.name b.2.name ≠ .gt))

/-- `App::update_installed`: each backend contributes its packages tagged
with the backend name when `installed()` succeeds and nothing when it
fails; the merged list is sorted by natural lexical order of package
names. -/
def update_installed (backends : Backends) : List (String × Package) :=
  List.insertionSort installedLE
    (backends.flatMap (fun nb =>
      match nb.2.installed with
      | .ok packages => packages.map (fun p => (nb.1, p))
      | .error _ => []))

/-! ## The update loop state and handlers (`App::update`, `src/main.rs:477-638`) -/

structure App where
  search_input : List Char
  search_results : Option (List SearchResult)
  installed : List (String × Package)
  selected_opt : Option Selected

/-- Commands dispatched by the handlers that matter here: none, a search
over a compiled pattern, or a selection fetch. -/
inductive AppCommand where
  | none
  | search (pattern : List Char)
  | dispatchSelect (backend_name : String) (package : Package)

/-- `Message::SearchSubmit` (`src/main.rs:550-565`).  `compileRegex` stands
for `regex::escape` followed by `RegexBuilder::build` — an external,
fallible step; `some pat` is a successfully compiled pattern, `none` a
compilation failure. -/
def updateSearchSubmit (compileRegex : List Char → Option (List Char))
    (app : App) : App × AppCommand :=
  if app.search_input.isEmpty = false then
    match compileRegex app.search_input with
    | some regex => (app, .search regex)
    | none => (app, .none)
  else (app, .none)

/-- `Message::SelectInstalled(installed_i)` (`src/main.rs:566-582`): checked
index into `self.installed`; a hit dispatches `select_package`, a miss only
logs. -/
def updateSelectInstalled (app : App) (installed_i : Nat) : App × AppCommand :=
  match app.installed[installed_i]? with
  | some nb => (app, .dispatchSelect nb.1 nb.2)
  | none => (app, .none)

/-- `Message::SelectSearchResult(result_i)` (`src/main.rs:586-604`): checked
index into the current search results, if any. -/
def updateSelectSearchResult (app : App) (result_i : Nat) : App × AppCommand :=
  match app.search_results with
  | some results =>
    match results[result_i]? with
    | some r =>
      let selected : Selected :=
        { backend_name := r.backend_name, id := r.id, name := r.name,
          summary := r.summary, collection := r.collection }
      ({ app with selected_opt := some selected }, .none)
    | none => (app, .none)
  | none => (app, .none)

/-- Applying a selection message to the state: `Message::Selected`
(`src/main.rs:605-607`) sets `selected_opt`; no message leaves the state
untouched. -/
def applySelectedMsg (app : App) (msg : Option Selected) : App :=
  match msg with
  | some selected => { app with selected_opt := some selected }
  | none => app

/-! ## Order facts for the two sort comparators -/

/-- The weight-then-key comparator underlying `cmpResult`. -/
def cmpWK (a b : Nat × List (Nat × Nat)) : Ordering :=
  (cmpN a.1 b.1).then (cmpKey a.2 b.2)

theorem then_ne_gt {o o' : Ordering} :
    o.then o' ≠ .gt ↔ o = .lt ∨ (o = .eq ∧ o' ≠ .gt) := by
  cases o <;> simp [Ordering.then]

theorem cmpWK_le_trans {x y z : Nat × List (Nat × Nat)}
    (hxy : cmpWK x y ≠ .gt) (hyz : cmpWK y z ≠ .gt) : cmpWK x z ≠ .gt := by
  unfold cmpWK at *
  rw [then_ne_gt] at hxy hyz ⊢
  rcases hxy with h | ⟨h1, h2⟩ <;> rcases hyz with h' | ⟨h1', h2'⟩
  · rw [cmpN_lt_iff] at h h'
    exact Or.inl (cmpN_lt_iff.mpr (by omega))
  · rw [cmpN_lt_iff] at h
    rw [cmpN_eq_iff] at h1'
    exact Or.inl (cmpN_lt_iff.mpr (by omega))
  · rw [cmpN_eq_iff] at h1
    rw [cmpN_lt_iff] at h'
    exact Or.inl (cmpN_lt_iff.mpr (by omega))
  · rw [cmpN_eq_iff] at h1 h1'
    exact Or.inr ⟨cmpN_eq_iff.mpr (h1.trans h1'), cmpKey_le_trans h2 h2'⟩

theorem cmpWK_le_total (x y : Nat × List (Nat × Nat)) :
    cmpWK x y ≠ .gt ∨ cmpWK y x ≠ .gt := by
  by_cases h : cmpWK x y = .gt
  · refine Or.inr ?_
    unfold cmpWK at *
    rw [then_eq_gt] at h
    rw [then_ne_gt]
    rcases h with h | ⟨h1, h2⟩
    · rw [cmpN_gt_iff] at h
      exact Or.inl (cmpN_lt_iff.mpr h)
    · rw [cmpN_eq_iff] at h1
      refine Or.inr ⟨cmpN_eq_iff.mpr h1.symm, ?_⟩
      rw [cmpKey_gt_iff.mp h2]
      intro hc
      cases hc
  · exact Or.inl h

theorem cmpResult_eq_cmpWK (a b : SearchResult) :
    cmpResult a b = cmpWK (a.weight, strKey a.name) (b.weight, strKey b.name) := by
  unfold cmpResult cmpWK naturalLexicalCmp
  cases cmpN a.weight b.weight <;> rfl

instance : IsTrans SearchResult resultLE :=
  ⟨fun a b c hab hbc => by
    unfold resultLE at *
    rw [cmpResult_eq_cmpWK] at *
    exact cmpWK_le_trans hab hbc⟩

instance : IsTotal SearchResult resultLE :=
  ⟨fun a b => by
    unfold resultLE
    rw [cmpResult_eq_cmpWK, cmpResult_eq_cmpWK]
    exact cmpWK_le_total _ _⟩

instance : IsTrans (String × Package) installedLE :=
  ⟨fun a b c hab hbc => by
    unfold installedLE naturalLexicalCmp at *
    exact cmpKey_le_trans hab hbc⟩

instance : IsTotal (String × Package) installedLE :=
  ⟨fun a b => by
    unfold installedLE naturalLexicalCmp
    exact cmpKey_le_total _ _⟩

/-! ## Supporting lemmas about search -/

theorem searchWeight_le_five {pat name summary : List Char} {w : Nat}
    (h : searchWeight pat name summary = some w) : w ≤ 5 := by
  unfold searchWeight at h
  split at h
  · split at h
    · split at h <;> (injection h with h; omega)
    · injection h with h
      omega
  · split at h
    · split at h
      · split at h <;> (injection h with h; omega)
      · injection h with h
        omega
    · cases h

theorem findICAux_eq_none_of {pat s : List Char} (h : matchesIC pat s = false) :
    findICAux pat s = none := by
  cases hf : findICAux pat s with
  | none => rfl
  | some i =>
    obtain ⟨h1, -⟩ := findICAux_some pat s i hf
    rw [(matchesIC_iff pat s).mpr ⟨i, h1⟩] at h
    cases h

theorem searchWeight_eq_none {pat name summary : List Char}
    (hn : matchesIC pat name = false) (hs : matchesIC pat summary = false) :
    searchWeight pat name summary = none := by
  unfold searchWeight regexFind
  rw [findICAux_eq_none_of hn, findICAux_eq_none_of hs]
  rfl

theorem mem_searchAll {pat : List Char} {locale : String}
    {cache : List (String × Collection)} {r : SearchResult} :
    r ∈ searchAll pat locale cache ↔
      ∃ ic ∈ cache, ∃ comp ∈ ic.2.components,
        searchComponent pat locale ic.1 ic.2 comp = some r := by
  unfold searchAll
  rw [List.mem_insertionSort, List.mem_flatMap]
  constructor
  · rintro ⟨ic, hic, hmem⟩
    obtain ⟨comp, hcomp, hsc⟩ := List.mem_filterMap.mp hmem
    exact ⟨ic, hic, comp, hcomp, hsc⟩
  · rintro ⟨ic, hic, comp, hcomp, hsc⟩
    exact ⟨ic, hic, List.mem_filterMap.mpr ⟨comp, hcomp, hsc⟩⟩

/-! ## Claim theorems -/

/-- C3: every emitted result sequence is sorted by ascending weight, results
of equal weight being in natural lexical order of their names; and the
natural order indeed compares embedded numeric runs as numbers, so
"File 2" precedes "File 10". -/
theorem c3_results_sorted :
    (∀ (pat : List Char) (locale : String) (cache : List (String × Collection)),
      (searchAll pat locale cache).Pairwise
        (fun a b => a.weight < b.weight ∨
          (a.weight = b.weight ∧ naturalLexicalCmp a.name b.name ≠ .gt))) ∧
    naturalLexicalCmp ['F', 'i', 'l', 'e', ' ', '2'] ['F', 'i', 'l', 'e', ' ', '1', '0'] =
      .lt := by
  constructor
  · intro pat locale cache
    unfold searchAll
    refine List.Pairwise.imp ?_ (List.sorted_insertionSort resultLE _)
    intro a b hab
    unfold resultLE at hab
    cases h : cmpN a.weight b.weight with
    | lt => exact Or.inl (cmpN_lt_iff.mp h)
    | eq =>
      refine Or.inr ⟨cmpN_eq_iff.mp h, ?_⟩
      unfold cmpResult at hab
      rw [h] at hab
      exact hab
    | gt =>
      exfalso
      unfold cmpResult at hab
      rw [h] at hab
      exact hab rfl
  · decide

/-- C7: every produced result's weight lies in the tier set {0,...,5}, and a
component matching neither name nor summary contributes no result. -/
theorem c7_weight_tier_set :
    (∀ (pat : List Char) (locale : String) (cache : List (String × Collection))
        (r : SearchResult), r ∈ searchAll pat locale cache → r.weight ≤ 5) ∧
    (∀ (pat : List Char) (locale : String) (id : String) (col : Collection)
        (comp : Component),
      matchesIC pat (localizedName comp locale) = false →
      matchesIC pat (localizedSummary comp locale) = false →
      searchComponent pat locale id col comp = none) := by
  constructor
  · intro pat locale cache r hr
    obtain ⟨ic, -, comp, -, hsc⟩ := mem_searchAll.mp hr
    unfold searchComponent at hsc
    split at hsc
    next w hw =>
      cases hsc
      exact searchWeight_le_five hw
    next => cases hsc
  · intro pat locale id col comp hn hs
    unfold searchComponent
    rw [searchWeight_eq_none hn hs]

/-- C7 witness: weight of the one concrete result is within the tier set,
and a never-matching component yields no result. -/
theorem c7_witness :
    ({ backend_name := "TODO", id := "c1", name := ['a'], summary := [],
       collection := ⟨none, [⟨⟨[("default", ['a'])]⟩, none⟩]⟩, weight := 0 }
        : SearchResult).weight ≤ 5 ∧
    searchComponent ['z'] "en" "c1" ⟨none, [⟨⟨[("default", ['a'])]⟩, none⟩]⟩
      ⟨⟨[("default", ['a'])]⟩, none⟩ = none :=
  ⟨c7_weight_tier_set.1 ['a'] "en" [("c1", ⟨none, [⟨⟨[("default", ['a'])]⟩, none⟩]⟩)] _
      (by decide),
   c7_weight_tier_set.2 ['z'] "en" "c1" ⟨none, [⟨⟨[("default", ['a'])]⟩, none⟩]⟩
      ⟨⟨[("default", ['a'])]⟩, none⟩ (by decide) (by decide)⟩

/-- C9: every produced result carries the placeholder backend name "TODO",
its id is the key of the collection it came from, and all matching
components of one collection yield results with that collection's key as
their id. -/
theorem c9_backend_name_and_id (pat : List Char) (locale : String)
    (cache : List (String × Collection)) :
    (∀ r ∈ searchAll pat locale cache,
      r.backend_name = "TODO" ∧ (r.id, r.collection) ∈ cache) ∧
    (∀ (id : String) (col : Collection),
      ∀ r ∈ col.components.filterMap (searchComponent pat locale id col), r.id = id) := by
  constructor
  · intro r hr
    obtain ⟨ic, hic, comp, -, hsc⟩ := mem_searchAll.mp hr
    unfold searchComponent at hsc
    split at hsc
    next w hw =>
      cases hsc
      exact ⟨rfl, by simpa using hic⟩
    next => cases hsc
  · intro id col r hr
    obtain ⟨comp, -, hsc⟩ := List.mem_filterMap.mp hr
    unfold searchComponent at hsc
    split at hsc
    next w hw =>
      cases hsc
      rfl
    next => cases hsc

/-- C9 witness: the concrete result carries backend name "TODO" and the key
of its collection. -/
theorem c9_witness :
    ({ backend_name := "TODO", id := "c1", name := ['a'], summary := [],
       collection := ⟨none, [⟨⟨[("default", ['a'])]⟩, none⟩]⟩, weight := 0 }
        : SearchResult).backend_name = "TODO" ∧
    (({ backend_name := "TODO", id := "c1", name := ['a'], summary := [],
        collection := ⟨none, [⟨⟨[("default", ['a'])]⟩, none⟩]⟩, weight := 0 }
        : SearchResult).id,
     ({ backend_name := "TODO", id := "c1", name := ['a'], summary := [],
        collection := ⟨none, [⟨⟨[("default", ['a'])]⟩, none⟩]⟩, weight := 0 }
        : SearchResult).collection) ∈
      [("c1", (⟨none, [⟨⟨[("default", ['a'])]⟩, none⟩]⟩ : Collection))] :=
  (c9_backend_name_and_id ['a'] "en" [("c1", ⟨none, [⟨⟨[("default", ['a'])]⟩, none⟩]⟩)]).1
    _ (by decide)

/-- C4: when the backend is unregistered or its appstream fetch fails, no
`Selected` record is produced and the prior selection state is untouched. -/
theorem c4_failed_selection_noop (backends : Backends) (name : String)
    (package : Package) (app : App)
    (h : getBackend backends name = none ∨
      ∃ b e, getBackend backends name = some b ∧ b.appstream package = .error e) :
    select_package backends name package = none ∧
    applySelectedMsg app (select_package backends name package) = app := by
  have hnone : select_package backends name package = none := by
    rcases h with h | ⟨b, e, hb, he⟩
    · unfold select_package
      rw [h]
    · simp only [select_package, hb, he]
  refine ⟨hnone, ?_⟩
  rw [hnone]
  rfl

/-- C4 witness: unregistered backend, with a pre-existing selection in
place. -/
theorem c4_witness :
    select_package [] "flatpak" ⟨"org.x", ['x'], ['1'], []⟩ = none ∧
    applySelectedMsg
      ⟨[], none, [], some ⟨"b", "i", ['n'], [], ⟨none, []⟩⟩⟩
      (select_package [] "flatpak" ⟨"org.x", ['x'], ['1'], []⟩) =
      ⟨[], none, [], some ⟨"b", "i", ['n'], [], ⟨none, []⟩⟩⟩ :=
  c4_failed_selection_noop [] "flatpak" ⟨"org.x", ['x'], ['1'], []⟩
    ⟨[], none, [], some ⟨"b", "i", ['n'], [], ⟨none, []⟩⟩⟩ (Or.inl rfl)

/-- C5: listing installed packages isolates per-backend failures — failing
backends contribute nothing, all backends failing yields the empty list
rather than an error — and the merged list is sorted by natural lexical
order of package names. -/
theorem c5_installed_merge (backends : Backends) :
    ((∀ nb ∈ backends, ∃ e, nb.2.installed = Except.error e) →
      update_installed backends = []) ∧
    (∀ (n : String) (p : Package),
      (n, p) ∈ update_installed backends ↔
        ∃ b pkgs, (n, b) ∈ backends ∧ b.installed = Except.ok pkgs ∧ p ∈ pkgs) ∧
    (update_installed backends).Pairwise
      (fun a b => naturalLexicalCmp a.2.name b.2.name ≠ .gt) := by
  have hmem : ∀ (n : String) (p : Package),
      (n, p) ∈ update_installed backends ↔
        ∃ b pkgs, (n, b) ∈ backends ∧ b.installed = Except.ok pkgs ∧ p ∈ pkgs := by
    intro n p
    unfold update_installed
    rw [List.mem_insertionSort, List.mem_flatMap]
    constructor
    · rintro ⟨⟨bn, b⟩, hnb, hmem⟩
      cases hb : b.installed with
      | ok pkgs =>
        rw [hb] at hmem
        obtain ⟨q, hq, hqe⟩ := List.mem_map.mp hmem
        obtain ⟨he1, he2⟩ := Prod.mk.injEq .. ▸ hqe
        subst he1
        subst he2
        exact ⟨b, pkgs, hnb, hb, hq⟩
      | error e =>
        rw [hb] at hmem
        cases hmem
    · rintro ⟨b, pkgs, hb, hok, hp⟩
      refine ⟨(n, b), hb, ?_⟩
      rw [hok]
      exact List.mem_map.mpr ⟨p, hp, rfl⟩
  refine ⟨?_, hmem, ?_⟩
  · intro hall
    refine List.eq_nil_iff_forall_not_mem.mpr ?_
    rintro ⟨n, p⟩ hx
    obtain ⟨b, pkgs, hb, hok, -⟩ := (hmem n p).mp hx
    obtain ⟨e, he⟩ := hall (n, b) hb
    rw [hok] at he
    cases he
  · unfold update_installed
    exact List.Pairwise.imp (fun h => h) (List.sorted_insertionSort installedLE _)

/-- C5 witness: a registry whose only backend fails still yields a (merged,
empty) list. -/
theorem c5_witness :
    update_installed [("pk", ⟨Except.error "unavailable", fun _ => Except.error "unavailable"⟩)] =
      [] :=
  (c5_installed_merge
      [("pk", ⟨Except.error "unavailable", fun _ => Except.error "unavailable"⟩)]).1
    (by
      rintro nb hnb
      rw [List.mem_singleton] at hnb
      subst hnb
      exact ⟨"unavailable", rfl⟩)

/-- C6: an empty query, or a pattern that fails to compile, dispatches no
search and leaves the whole state — search results included — unchanged. -/
theorem c6_search_submit_guard (compileRegex : List Char → Option (List Char))
    (app : App)
    (h : app.search_input.isEmpty = true ∨ compileRegex app.search_input = none) :
    updateSearchSubmit compileRegex app = (app, AppCommand.none) := by
  unfold updateSearchSubmit
  rcases h with h | h
  · have hne : ¬(app.search_input.isEmpty = false) := by
      rw [h]
      intro hc
      cases hc
    rw [if_neg hne]
  · by_cases he : app.search_input.isEmpty = false
    · rw [if_pos he, h]
    · rw [if_neg he]

/-- C6 witness: empty query with existing (empty) search results; nothing is
dispatched and the state is untouched. -/
theorem c6_witness :
    updateSearchSubmit (fun s => some s) ⟨[], some [], [], none⟩ =
      (⟨[], some [], [], none⟩, AppCommand.none) :=
  c6_search_submit_guard (fun s => some s) ⟨[], some [], [], none⟩ (Or.inl rfl)

/-- C10: out-of-range `SelectInstalled` and `SelectSearchResult` indices (or
a `SelectSearchResult` with no results present) change no state and dispatch
no work; lookup is by checked indexing, modelled totally. -/
theorem c10_out_of_range_select_noop (app : App) (i j : Nat) :
    (app.installed.length ≤ i →
      updateSelectInstalled app i = (app, AppCommand.none)) ∧
    ((app.search_results = none ∨
        ∃ rs, app.search_results = some rs ∧ rs.length ≤ j) →
      updateSelectSearchResult app j = (app, AppCommand.none)) := by
  constructor
  · intro h
    unfold updateSelectInstalled
    rw [List.getElem?_eq_none h]
  · intro h
    rcases h with h | ⟨rs, hrs, hlen⟩
    · unfold updateSelectSearchResult
      rw [h]
    · simp only [updateSelectSearchResult, hrs, List.getElem?_eq_none hlen]

/-- C10 witness: index 0 into an empty installed list and into empty search
results. -/
theorem c10_witness :
    updateSelectInstalled ⟨[], some [], [], none⟩ 0 =
      (⟨[], some [], [], none⟩, AppCommand.none) ∧
    updateSelectSearchResult ⟨[], some [], [], none⟩ 0 =
      (⟨[], some [], [], none⟩, AppCommand.none) :=
  ⟨(c10_out_of_range_select_noop ⟨[], some [], [], none⟩ 0 0).1 (Nat.le_refl 0),
   (c10_out_of_range_select_noop ⟨[], some [], [], none⟩ 0 0).2
     (Or.inr ⟨[], rfl, Nat.le_refl 0⟩)⟩

/-- C8: localized resolution returns the exact-locale string when present,
else the default-locale string, else the empty string. -/
theorem c8_locale_resolution (t : TranslatableString) (locale : String) :
    (∀ s, get_for_locale t locale = some s → get_translatable t locale = s) ∧
    (get_for_locale t locale = none →
      ∀ s, get_default t = some s → get_translatable t locale = s) ∧
    (get_for_locale t locale = none → get_default t = none →
      get_translatable t locale = []) := by
  refine ⟨?_, ?_, ?_⟩
  · intro s h
    unfold get_translatable
    rw [h]
  · intro h s h'
    unfold get_translatable
    rw [h, h']
  · intro h h'
    unfold get_translatable
    rw [h, h']

/-- C8 witness: exact-locale entry present and returned. -/
theorem c8_witness :
    get_translatable ⟨[("en", ['a'])]⟩ "en" = ['a'] :=
  (c8_locale_resolution ⟨[("en", ['a'])]⟩ "en").1 ['a'] (by decide)

end CosmicStore
